import Mathlib

/-!
Verification of the broadcast coalescing engine (struct Room) of the
High-performance-pub-sub repository: a shallow embedding of the C++
Room state, its publish / addSubscriber / broadcast operations and the
libuv prepare / check window-controller callbacks, together with
theorems settling the specified properties.

Modelling conventions:
* bytes are natural numbers; a payload and the shared message
  (std::string) are a List Nat;
* a socket (uWS::WebSocket) is identified by its poll handle, an
  opaque totally ordered identity, modelled as Nat; the std::map
  ordered by socket is an association list sorted by that order
  (socket equality in the dispatch loop compares poll handles, which
  coincides with identity of the socket);
* substr(pos, cnt) is (s.drop pos).take cnt and substr(pos) is
  s.drop pos; every use reached by the theorems below is in bounds,
  where these agree with the C++ semantics;
* the vector access uniqueSender.second[0] on an empty vector is
  undefined behaviour, so the reconstruction returns an Option and
  none stands for that out-of-bounds access;
* C++ int fields hold only non-negative buffer offsets and counters in
  this program and are modelled as Nat.
-/

/-- A Gap refers to a gap in the sharedMessage string (struct Gap):
a half-open byte interval starting at start of the given length. -/
structure Gap where
  start : Nat
  length : Nat
deriving DecidableEq, Repr

/-- An abstract send action emitted by broadcast: either the prepared
shared message sent verbatim (socket.sendPrepared) or a per-sender
reconstructed message (socket.send). -/
inductive SendAction where
  | sendVerbatim : List Nat → SendAction
  | sendBytes : List Nat → SendAction
deriving DecidableEq, Repr

/-- The Room structure: one batch per room. uniqueSenders is the
std::map from socket to its gap vector, kept sorted by socket id. -/
structure Room where
  uniqueSenders : List (Nat × List Gap)
  sharedMessage : List Nat
  sockets : List Nat
  gotPubsThisIteration : Bool
  batched : Nat
deriving DecidableEq, Repr

/-- uniqueSenders[sender].push_back(g) on the sorted map: find the
entry for the sender (creating it at its sorted position, with the
default empty vector, if absent) and append g to its vector. -/
def insertGap (l : List (Nat × List Gap)) (sender : Nat) (g : Gap) :
    List (Nat × List Gap) :=
  match l with
  | [] => [(sender, [g])]
  | (k, gs) :: rest =>
    if sender < k then (sender, [g]) :: (k, gs) :: rest
    else if sender = k then (k, gs ++ [g]) :: rest
    else (k, gs) :: insertGap rest sender g

/-- Room::publish: record start = sharedMessage.length, append the
message, push the gap for the sender, set the batching counters. -/
def Room.publish (r : Room) (sender : Nat) (message : List Nat) : Room :=
  { r with
    sharedMessage := r.sharedMessage ++ message,
    uniqueSenders := insertGap r.uniqueSenders sender
      ⟨r.sharedMessage.length, message.length⟩,
    gotPubsThisIteration := true,
    batched := r.batched + 1 }

/-- Sorted insertion of one element. -/
def insertSorted (x : Nat) : List Nat → List Nat
  | [] => [x]
  | y :: ys => if x ≤ y then x :: y :: ys else y :: insertSorted x ys

/-- Insertion sort; models std::sort (for Nat values the sorted
permutation of a list is unique, so any correct sort agrees). -/
def sortList : List Nat → List Nat
  | [] => []
  | x :: xs => insertSorted x (sortList xs)

/-- Room::addSubscriber: sockets.push_back(ws) followed by std::sort
of the whole vector. -/
def Room.addSubscriber (r : Room) (ws : Nat) : Room :=
  { r with sockets := sortList (r.sockets ++ [ws]) }

/-- The gap loop plus epilogue of the reconstruction in broadcast:
lastStop is the end of the previously handled gap; each step appends
sharedMessage.substr(lastStop, gap.start - lastStop) and the epilogue
appends sharedMessage.substr(lastStop). -/
def recTail (buf : List Nat) (lastStop : Nat) : List Gap → List Nat
  | [] => buf.drop lastStop
  | g :: gs => (buf.drop lastStop).take (g.start - lastStop) ++
      recTail buf (g.start + g.length) gs

/-- The per-sender message computed by broadcast:
substr(0, gaps[0].start), then the gap loop from index 1, then the
final substr(lastStop). Reading gaps[0] of an empty vector is out of
bounds, modelled as none. -/
def reconstructCode (buf : List Nat) : List Gap → Option (List Nat)
  | [] => none
  | g :: gs => some (buf.take g.start ++ recTail buf (g.start + g.length) gs)

/-- The uniqueMessages vector of broadcast: one (poll handle,
reconstructed message) pair per unique sender, in map (sorted) order;
none if any reconstruction reads out of bounds. -/
def collectMsgs (buf : List Nat) : List (Nat × List Gap) →
    Option (List (Nat × List Nat))
  | [] => some []
  | (k, gs) :: rest => do
    let m ← reconstructCode buf gs
    let ms ← collectMsgs buf rest
    pure ((k, m) :: ms)

/-- The send loop of broadcast: iterate sockets in sorted order with a
cursor j into uniqueMessages; on a poll-handle match send the unique
message when it is non-empty and advance j, otherwise send the
prepared shared message verbatim. -/
def dispatchLoop (shared : List Nat) : List (Nat × List Nat) → List Nat →
    List (Nat × SendAction)
  | _, [] => []
  | [], s :: ss => (s, SendAction.sendVerbatim shared) :: dispatchLoop shared [] ss
  | (k, m) :: ms, s :: ss =>
    if k = s then
      (if m.length ≠ 0 then [(s, SendAction.sendBytes m)] else []) ++ dispatchLoop shared ms ss
    else
      (s, SendAction.sendVerbatim shared) :: dispatchLoop shared ((k, m) :: ms) ss

/-- The dispatch plan broadcast emits: the unique messages followed by
the send loop over the sorted sockets. -/
def Room.broadcastPlan (r : Room) : Option (List (Nat × SendAction)) :=
  (collectMsgs r.sharedMessage r.uniqueSenders).map
    fun msgs => dispatchLoop r.sharedMessage msgs r.sockets

/-- The state reset at the end of broadcast: batched = 0,
uniqueSenders.clear(), sharedMessage.clear(); sockets and
gotPubsThisIteration are untouched. -/
def Room.flushState (r : Room) : Room :=
  { r with batched := 0, uniqueSenders := [], sharedMessage := [] }

/-- Room::broadcast: the emitted plan together with the room state it
leaves behind. -/
def Room.broadcast (r : Room) : Option (List (Nat × SendAction) × Room) :=
  r.broadcastPlan.map fun plan => (plan, r.flushState)

/-- The uv_prepare callback (before the loop blocks): if batching, arm
the 1ms wakeup timer (a real-time effect with no state in the Room)
and clear gotPubsThisIteration. -/
def prepareCb (r : Room) : Room :=
  if r.batched ≠ 0 then { r with gotPubsThisIteration := false } else r

/-- The uv_check callback (after all ready handlers ran): if batching
and no pubs arrived this iteration, broadcast; otherwise do nothing
(no sends, state unchanged). -/
def checkCb (r : Room) : Option (List (Nat × SendAction) × Room) :=
  if r.batched ≠ 0 ∧ r.gotPubsThisIteration = false then r.broadcast
  else some ([], r)

/-- The publishes delivered by the ready I/O handlers of one loop pass
(hub.onMessage forwards each message to defaultRoom.publish). -/
def runPubs (r : Room) : List (Nat × List Nat) → Room
  | [] => r
  | (s, m) :: ps => runPubs (r.publish s m) ps

/-- One full controller pass: prepare callback, then the publishes
delivered by the ready handlers, then the check callback. -/
def controllerPass (r : Room) (pubs : List (Nat × List Nat)) :
    Option (List (Nat × SendAction) × Room) :=
  checkCb (runPubs (prepareCb r) pubs)

/-- The operations that drive a Room from outside. flushOp performs
broadcast's state reset; the plan broadcast would emit alongside it is
Room.broadcastPlan. -/
inductive Op where
  | sub : Nat → Op
  | pub : Nat → List Nat → Op
  | flushOp : Op
deriving DecidableEq, Repr

def applyOp (r : Room) : Op → Room
  | .sub id => r.addSubscriber id
  | .pub s m => r.publish s m
  | .flushOp => r.flushState

def runOps (r : Room) (ops : List Op) : Room := ops.foldl applyOp r

/-- The freshly created defaultRoom: everything empty. -/
def initRoom : Room :=
  { uniqueSenders := [], sharedMessage := [], sockets := [],
    gotPubsThisIteration := false, batched := 0 }

/-- The keys of the exclusion index. -/
def senderKeys (r : Room) : List Nat := r.uniqueSenders.map Prod.fst

/-- ops forms a single window: no flush occurs inside it. -/
def flushFree (ops : List Op) : Prop := ∀ o ∈ ops, o ≠ Op.flushOp

instance (ops : List Op) : Decidable (flushFree ops) :=
  inferInstanceAs (Decidable (∀ o ∈ ops, o ≠ Op.flushOp))

/-- Concatenation of all published payloads in ops order. -/
def concatPubs : List Op → List Nat
  | [] => []
  | Op.pub _ m :: rest => m ++ concatPubs rest
  | _ :: rest => concatPubs rest

/-- Concatenation of the payloads published by senders other than x,
in ops order. -/
def concatExcept (x : Nat) : List Op → List Nat
  | [] => []
  | Op.pub s m :: rest => (if s = x then [] else m) ++ concatExcept x rest
  | _ :: rest => concatExcept x rest

/-- The op is not a publish of an empty payload. -/
def pubNonemptyB : Op → Bool
  | Op.pub _ m => !m.isEmpty
  | _ => true

/-- Every publish in ops carries a non-empty payload. -/
def allPubsNonempty (ops : List Op) : Prop := ∀ o ∈ ops, pubNonemptyB o = true

instance (ops : List Op) : Decidable (allPubsNonempty ops) :=
  inferInstanceAs (Decidable (∀ o ∈ ops, pubNonemptyB o = true))

/-- chainFrom a gs: every gap of gs starts at or after a, and each
later gap starts at or after the previous gap's end. -/
def chainFrom (a : Nat) : List Gap → Prop
  | [] => True
  | g :: gs => a ≤ g.start ∧ chainFrom (g.start + g.length) gs

instance chainFromDecidable : (a : Nat) → (gs : List Gap) → Decidable (chainFrom a gs)
  | _, [] => isTrue trivial
  | a, g :: gs =>
    haveI : Decidable (chainFrom (g.start + g.length) gs) :=
      chainFromDecidable (g.start + g.length) gs
    inferInstanceAs (Decidable (a ≤ g.start ∧ chainFrom (g.start + g.length) gs))

/-- The byte index i lies inside one of the gaps. -/
def inGaps (gs : List Gap) (i : Nat) : Bool :=
  gs.any fun g => decide (g.start ≤ i) && decide (i < g.start + g.length)

/-- R covers the whole buffer of length n: every byte index below n
lies in some gap of R. -/
def coversBuffer (n : Nat) (R : List Gap) : Prop := ∀ i < n, inGaps R i = true

instance (n : Nat) (R : List Gap) : Decidable (coversBuffer n R) :=
  inferInstanceAs (Decidable (∀ i < n, inGaps R i = true))

/-- The slice of buf on the half-open interval from a to b. -/
def sliceSeg (buf : List Nat) (a b : Nat) : List Nat := (buf.take b).drop a

/-- Helper for specSegments: prev is the last handled range. -/
def specSegsAux (buf : List Nat) (prev : Gap) : List Gap → List Nat
  | [] => sliceSeg buf (prev.start + prev.length) buf.length
  | g :: gs => sliceSeg buf (prev.start + prev.length) g.start ++ specSegsAux buf g gs

/-- Modelled from the spec's words (the segment formula of §4.1 step 2,
stated again in the claims, for the refinement comparison): the ordered
concatenation of the segments from 0 to R0.start, from each range's
end to the next range's start, and from the last range's end to
len(buf); an empty R returns buf unchanged. -/
def specSegments (buf : List Nat) : List Gap → List Nat
  | [] => buf
  | g :: gs => sliceSeg buf 0 g.start ++ specSegsAux buf g gs

/-! ### Helper lemmas about gap chains and the reconstruction -/

theorem inGaps_cons {g : Gap} {gs : List Gap} {i : Nat} :
    inGaps (g :: gs) i = true ↔
      (g.start ≤ i ∧ i < g.start + g.length) ∨ inGaps gs i = true := by
  simp [inGaps]

theorem inGaps_true_iff {gs : List Gap} {i : Nat} :
    inGaps gs i = true ↔ ∃ g ∈ gs, g.start ≤ i ∧ i < g.start + g.length := by
  simp [inGaps]

theorem chainFrom_le_start {a : Nat} {gs : List Gap} (h : chainFrom a gs) :
    ∀ g ∈ gs, a ≤ g.start := by
  induction gs generalizing a with
  | nil => intro g hg; cases hg
  | cons g0 gs ih =>
    obtain ⟨h1, h2⟩ := h
    intro g hg
    cases hg with
    | head => exact h1
    | tail _ hg =>
      have := ih h2 g hg
      omega

theorem chainFrom_snoc {a B L : Nat} {gs : List Gap} (h : chainFrom a gs)
    (hb : ∀ g ∈ gs, g.start + g.length ≤ B) (hab : a ≤ B) :
    chainFrom a (gs ++ [⟨B, L⟩]) := by
  induction gs generalizing a with
  | nil => exact ⟨hab, trivial⟩
  | cons g0 gs ih =>
    obtain ⟨h1, h2⟩ := h
    exact ⟨h1, ih h2 (fun g hg => hb g (List.mem_cons_of_mem _ hg))
      (hb g0 (List.mem_cons_self _ _))⟩

theorem chainFrom_pairwise {a : Nat} {gs : List Gap} (h : chainFrom a gs) :
    List.Pairwise (fun g₁ g₂ => g₁.start + g₁.length ≤ g₂.start) gs := by
  induction gs generalizing a with
  | nil => exact List.Pairwise.nil
  | cons g0 gs ih =>
    obtain ⟨h1, h2⟩ := h
    exact List.pairwise_cons.mpr ⟨chainFrom_le_start h2, ih h2⟩

theorem recTail_extend {buf m : List Nat} {ls : Nat} {gs : List Gap}
    (hb : ∀ g ∈ gs, g.start + g.length ≤ buf.length) (hls : ls ≤ buf.length) :
    recTail (buf ++ m) ls gs = recTail buf ls gs ++ m := by
  induction gs generalizing ls with
  | nil =>
    simp only [recTail]
    rw [List.drop_append_eq_append_drop, Nat.sub_eq_zero_of_le hls, List.drop_zero]
  | cons g gs ih =>
    simp only [recTail]
    have hg := hb g (List.mem_cons_self _ _)
    have h1 : List.drop ls (buf ++ m) = List.drop ls buf ++ m := by
      rw [List.drop_append_eq_append_drop, Nat.sub_eq_zero_of_le hls, List.drop_zero]
    rw [h1, List.take_append_of_le_length (by rw [List.length_drop]; omega),
      ih (fun g' hg' => hb g' (List.mem_cons_of_mem _ hg')) (by omega),
      List.append_assoc]

theorem recTail_snocGap {buf m : List Nat} {ls : Nat} {gs : List Gap}
    (hb : ∀ g ∈ gs, g.start + g.length ≤ buf.length) (hls : ls ≤ buf.length) :
    recTail (buf ++ m) ls (gs ++ [⟨buf.length, m.length⟩]) = recTail buf ls gs := by
  induction gs generalizing ls with
  | nil =>
    simp only [List.nil_append, recTail]
    have h1 : List.drop ls (buf ++ m) = List.drop ls buf ++ m := by
      rw [List.drop_append_eq_append_drop, Nat.sub_eq_zero_of_le hls, List.drop_zero]
    have h2 : List.drop (buf.length + m.length) (buf ++ m) = [] := by
      simp [List.drop_eq_nil_iff]
    rw [h1, List.take_append_of_le_length (by rw [List.length_drop]),
      List.take_of_length_le (by rw [List.length_drop]), h2, List.append_nil]
  | cons g gs ih =>
    simp only [List.cons_append, recTail, List.append_eq]
    have hg := hb g (List.mem_cons_self _ _)
    have h1 : List.drop ls (buf ++ m) = List.drop ls buf ++ m := by
      rw [List.drop_append_eq_append_drop, Nat.sub_eq_zero_of_le hls, List.drop_zero]
    rw [h1, List.take_append_of_le_length (by rw [List.length_drop]; omega),
      ih (fun g' hg' => hb g' (List.mem_cons_of_mem _ hg')) (by omega)]

theorem recTail_eq_nil_iff {buf : List Nat} {ls : Nat} {gs : List Gap}
    (hc : chainFrom ls gs) (hb : ∀ g ∈ gs, g.start + g.length ≤ buf.length) :
    recTail buf ls gs = [] ↔ ∀ i, ls ≤ i → i < buf.length → inGaps gs i = true := by
  induction gs generalizing ls with
  | nil =>
    simp only [recTail, List.drop_eq_nil_iff, inGaps, List.any_nil]
    constructor
    · intro h i h1 h2
      simp only [Bool.false_eq_true]
      omega
    · intro h
      by_contra hc2
      simpa using h ls (Nat.le_refl ls) (by omega)
  | cons g gs ih =>
    obtain ⟨h1, h2⟩ := hc
    have hg := hb g (List.mem_cons_self _ _)
    have hb' : ∀ g' ∈ gs, g'.start + g'.length ≤ buf.length :=
      fun g' hg' => hb g' (List.mem_cons_of_mem _ hg')
    have hstarts : ∀ g' ∈ gs, g.start + g.length ≤ g'.start := chainFrom_le_start h2
    simp only [recTail, List.append_eq_nil, List.take_eq_nil_iff, List.drop_eq_nil_iff,
      ih h2 hb']
    constructor
    · rintro ⟨hA, hB⟩ i hi1 hi2
      rw [inGaps_cons]
      by_cases hlt : i < g.start + g.length
      · left
        constructor
        · rcases hA with hA | hA <;> omega
        · exact hlt
      · exact Or.inr (hB i (by omega) hi2)
    · intro h
      constructor
      · by_contra hno
        push_neg at hno
        obtain ⟨hno1, hno2⟩ := hno
        have hmem := h ls (Nat.le_refl ls) (by omega)
        rw [inGaps_cons] at hmem
        rcases hmem with ⟨hA, _⟩ | hA
        · omega
        · obtain ⟨g', hg', hle, _⟩ := inGaps_true_iff.mp hA
          have := hstarts g' hg'
          omega
      · intro i hi1 hi2
        have hmem := h i (by omega) hi2
        rw [inGaps_cons] at hmem
        rcases hmem with ⟨_, hA⟩ | hA
        · omega
        · exact hA

theorem reconstructCode_eq_recTail (buf : List Nat) {R : List Gap} (h : R ≠ []) :
    reconstructCode buf R = some (recTail buf 0 R) := by
  cases R with
  | nil => exact absurd rfl h
  | cons g gs => simp [reconstructCode, recTail]

theorem recTail_eq_specAux {buf : List Nat} {gs : List Gap} :
    ∀ {prev : Gap}, chainFrom (prev.start + prev.length) gs →
      recTail buf (prev.start + prev.length) gs = specSegsAux buf prev gs := by
  induction gs with
  | nil =>
    intro prev _
    simp only [recTail, specSegsAux, sliceSeg, List.take_length]
  | cons g gs ih =>
    intro prev hc
    obtain ⟨h1, h2⟩ := hc
    simp only [recTail, specSegsAux, sliceSeg]
    rw [List.take_drop, Nat.add_sub_cancel' h1, ih h2]

theorem reconstructCode_eq_specSegments (buf : List Nat) {R : List Gap}
    (hc : chainFrom 0 R) (h : R ≠ []) :
    reconstructCode buf R = some (specSegments buf R) := by
  cases R with
  | nil => exact absurd rfl h
  | cons g gs =>
    obtain ⟨_, h2⟩ := hc
    simp only [reconstructCode, specSegments, sliceSeg, List.drop_zero]
    rw [recTail_eq_specAux h2]

/-! ### Helper lemmas about the exclusion index and the subscriber list -/

theorem insertGap_nil {t : Nat} {g : Gap} : insertGap [] t g = [(t, [g])] := rfl

theorem insertGap_cons_lt {k t : Nat} {gs : List Gap}
    {rest : List (Nat × List Gap)} {g : Gap} (h : t < k) :
    insertGap ((k, gs) :: rest) t g = (t, [g]) :: (k, gs) :: rest := by
  simp [insertGap, h]

theorem insertGap_cons_eq {k t : Nat} {gs : List Gap}
    {rest : List (Nat × List Gap)} {g : Gap} (_h1 : ¬t < k) (h2 : t = k) :
    insertGap ((k, gs) :: rest) t g = (k, gs ++ [g]) :: rest := by
  simp [insertGap, h2]

theorem insertGap_cons_gt {k t : Nat} {gs : List Gap}
    {rest : List (Nat × List Gap)} {g : Gap} (h1 : ¬t < k) (h2 : ¬t = k) :
    insertGap ((k, gs) :: rest) t g = (k, gs) :: insertGap rest t g := by
  simp [insertGap, h1, h2]

theorem mem_insertGap_ne {l : List (Nat × List Gap)} {s t : Nat}
    {R : List Gap} {g : Gap} (hne : s ≠ t) :
    (s, R) ∈ insertGap l t g ↔ (s, R) ∈ l := by
  induction l with
  | nil => simp [insertGap_nil, hne]
  | cons p rest ih =>
    obtain ⟨k, gs⟩ := p
    by_cases h1 : t < k
    · rw [insertGap_cons_lt h1]
      simp [hne]
    · by_cases h2 : t = k
      · rw [insertGap_cons_eq h1 h2]
        subst h2
        simp [hne]
      · rw [insertGap_cons_gt h1 h2]
        simp [ih]

theorem mem_insertGap_self {l : List (Nat × List Gap)} {t : Nat}
    {R' : List Gap} {g : Gap}
    (hpw : List.Pairwise (· < ·) (l.map Prod.fst))
    (hmem : (t, R') ∈ insertGap l t g) :
    (R' = [g] ∧ t ∉ l.map Prod.fst) ∨ ∃ R, (t, R) ∈ l ∧ R' = R ++ [g] := by
  induction l with
  | nil =>
    left
    rw [insertGap_nil, List.mem_singleton] at hmem
    injection hmem with _ h2
    exact ⟨h2, by simp⟩
  | cons q rest ih =>
    obtain ⟨k, gs⟩ := q
    rw [List.map_cons, List.pairwise_cons] at hpw
    obtain ⟨hk, hpw'⟩ := hpw
    replace hk : ∀ a ∈ rest.map Prod.fst, k < a := hk
    by_cases h1 : t < k
    · rw [insertGap_cons_lt h1, List.mem_cons, List.mem_cons] at hmem
      rcases hmem with h | h | h
      · left
        injection h with _ h2
        refine ⟨h2, ?_⟩
        simp only [List.map_cons, List.mem_cons]
        rintro (rfl | hx)
        · omega
        · have := hk t hx
          omega
      · exfalso
        injection h with h2 _
        omega
      · exfalso
        have ht : t ∈ rest.map Prod.fst := List.mem_map.mpr ⟨(t, R'), h, rfl⟩
        have := hk t ht
        omega
    · by_cases h2 : t = k
      · rw [insertGap_cons_eq h1 h2, List.mem_cons] at hmem
        rcases hmem with h | h
        · right
          injection h with h3 h4
          exact ⟨gs, by rw [h2]; exact List.mem_cons_self _ _, h4⟩
        · exfalso
          have ht : t ∈ rest.map Prod.fst := List.mem_map.mpr ⟨(t, R'), h, rfl⟩
          have := hk t ht
          omega
      · rw [insertGap_cons_gt h1 h2, List.mem_cons] at hmem
        rcases hmem with h | h
        · exfalso
          injection h with h3 _
          exact h2 h3
        · rcases ih hpw' h with ⟨hR, hnk⟩ | ⟨R, hmemR, hR⟩
          · left
            refine ⟨hR, ?_⟩
            simp only [List.map_cons, List.mem_cons]
            rintro (rfl | hx)
            · exact h2 rfl
            · exact hnk hx
          · exact Or.inr ⟨R, List.mem_cons_of_mem _ hmemR, hR⟩

theorem mem_insertGap_cases {l : List (Nat × List Gap)} {t : Nat}
    {p : Nat × List Gap} {g : Gap} (hmem : p ∈ insertGap l t g) :
    p ∈ l ∨ p = (t, [g]) ∨ ∃ R, (t, R) ∈ l ∧ p = (t, R ++ [g]) := by
  induction l with
  | nil =>
    rw [insertGap_nil, List.mem_singleton] at hmem
    exact Or.inr (Or.inl hmem)
  | cons q rest ih =>
    obtain ⟨k, gs⟩ := q
    by_cases h1 : t < k
    · rw [insertGap_cons_lt h1, List.mem_cons] at hmem
      rcases hmem with h | h
      · exact Or.inr (Or.inl h)
      · exact Or.inl h
    · by_cases h2 : t = k
      · rw [insertGap_cons_eq h1 h2, List.mem_cons] at hmem
        rcases hmem with h | h
        · exact Or.inr (Or.inr ⟨gs, by rw [h2]; exact List.mem_cons_self _ _, by rw [h, h2]⟩)
        · exact Or.inl (List.mem_cons_of_mem _ h)
      · rw [insertGap_cons_gt h1 h2, List.mem_cons] at hmem
        rcases hmem with h | h
        · exact Or.inl (h ▸ List.mem_cons_self _ _)
        · rcases ih h with h | h | ⟨R, hR, hp⟩
          · exact Or.inl (List.mem_cons_of_mem _ h)
          · exact Or.inr (Or.inl h)
          · exact Or.inr (Or.inr ⟨R, List.mem_cons_of_mem _ hR, hp⟩)

theorem mem_keys_insertGap {l : List (Nat × List Gap)} {t k : Nat} {g : Gap} :
    k ∈ (insertGap l t g).map Prod.fst ↔ k = t ∨ k ∈ l.map Prod.fst := by
  induction l with
  | nil => simp [insertGap_nil]
  | cons q rest ih =>
    obtain ⟨k0, gs⟩ := q
    by_cases h1 : t < k0
    · rw [insertGap_cons_lt h1]
      simp
    · by_cases h2 : t = k0
      · rw [insertGap_cons_eq h1 h2]
        subst h2
        simp only [List.map_cons, List.mem_cons]
        tauto
      · rw [insertGap_cons_gt h1 h2]
        simp only [List.map_cons, List.mem_cons, ih]
        tauto

theorem pairwise_keys_insertGap {l : List (Nat × List Gap)} {t : Nat} {g : Gap}
    (h : List.Pairwise (· < ·) (l.map Prod.fst)) :
    List.Pairwise (· < ·) ((insertGap l t g).map Prod.fst) := by
  induction l with
  | nil => simp [insertGap_nil]
  | cons q rest ih =>
    obtain ⟨k0, gs⟩ := q
    rw [List.map_cons, List.pairwise_cons] at h
    obtain ⟨hk0, hrest⟩ := h
    replace hk0 : ∀ a ∈ rest.map Prod.fst, k0 < a := hk0
    by_cases h1 : t < k0
    · rw [insertGap_cons_lt h1]
      simp only [List.map_cons, List.pairwise_cons]
      refine ⟨?_, hk0, hrest⟩
      intro x hx
      rcases List.mem_cons.mp hx with rfl | hx
      · exact h1
      · have := hk0 x hx
        omega
    · by_cases h2 : t = k0
      · rw [insertGap_cons_eq h1 h2]
        simp only [List.map_cons, List.pairwise_cons]
        exact ⟨hk0, hrest⟩
      · rw [insertGap_cons_gt h1 h2]
        simp only [List.map_cons, List.pairwise_cons]
        refine ⟨?_, ih hrest⟩
        intro x hx
        rcases mem_keys_insertGap.mp hx with rfl | hx
        · omega
        · exact hk0 x hx

theorem length_insertSorted (x : Nat) (l : List Nat) :
    (insertSorted x l).length = l.length + 1 := by
  induction l with
  | nil => rfl
  | cons y ys ih =>
    simp only [insertSorted]
    split
    · simp
    · simp [ih]

theorem length_sortList (l : List Nat) : (sortList l).length = l.length := by
  induction l with
  | nil => rfl
  | cons x xs ih => simp [sortList, length_insertSorted, ih]

theorem mem_insertSorted {x z : Nat} {l : List Nat} :
    z ∈ insertSorted x l ↔ z = x ∨ z ∈ l := by
  induction l with
  | nil => simp [insertSorted]
  | cons y ys ih =>
    simp only [insertSorted]
    split
    · simp only [List.mem_cons]
    · simp only [List.mem_cons, ih]
      tauto

theorem pairwise_insertSorted {x : Nat} {l : List Nat}
    (h : List.Pairwise (· ≤ ·) l) : List.Pairwise (· ≤ ·) (insertSorted x l) := by
  induction l with
  | nil => simp [insertSorted]
  | cons y ys ih =>
    rw [List.pairwise_cons] at h
    obtain ⟨hy, hys⟩ := h
    simp only [insertSorted]
    split
    · next hxy =>
      refine List.pairwise_cons.mpr ⟨?_, List.pairwise_cons.mpr ⟨hy, hys⟩⟩
      intro z hz
      rcases List.mem_cons.mp hz with rfl | hz
      · exact hxy
      · have := hy z hz
        omega
    · next hxy =>
      refine List.pairwise_cons.mpr ⟨?_, ih hys⟩
      intro z hz
      rcases mem_insertSorted.mp hz with rfl | hz
      · omega
      · exact hy z hz

theorem pairwise_sortList (l : List Nat) : List.Pairwise (· ≤ ·) (sortList l) := by
  induction l with
  | nil => exact List.Pairwise.nil
  | cons x xs ih => exact pairwise_insertSorted ih

/-! ### The structural invariant of a reachable Room -/

/-- Invariant of the exclusion index: keys strictly sorted (the
std::map iteration order), every entry holds at least one gap, and
each entry's gaps chain left to right within the shared buffer. -/
def RoomInv (r : Room) : Prop :=
  List.Pairwise (· < ·) (r.uniqueSenders.map Prod.fst) ∧
  ∀ p ∈ r.uniqueSenders, p.2 ≠ [] ∧ chainFrom 0 p.2 ∧
    ∀ g ∈ p.2, g.start + g.length ≤ r.sharedMessage.length

theorem roomInv_initRoom : RoomInv initRoom := by
  constructor
  · exact List.Pairwise.nil
  · intro p hp
    cases hp

theorem roomInv_publish {r : Room} (h : RoomInv r) (s : Nat) (m : List Nat) :
    RoomInv (r.publish s m) := by
  obtain ⟨hpw, hent⟩ := h
  constructor
  · exact pairwise_keys_insertGap hpw
  · intro p hp
    simp only [Room.publish] at hp ⊢
    rcases mem_insertGap_cases hp with hIn | hNew | ⟨R, hR, hEq⟩
    · obtain ⟨h1, h2, h3⟩ := hent p hIn
      refine ⟨h1, h2, ?_⟩
      intro g hg
      have := h3 g hg
      rw [List.length_append]
      omega
    · subst hNew
      refine ⟨by simp, ⟨Nat.zero_le _, trivial⟩, ?_⟩
      intro g hg
      rw [List.mem_singleton] at hg
      subst hg
      rw [List.length_append]
    · obtain ⟨h1, h2, h3⟩ := hent (s, R) hR
      subst hEq
      refine ⟨by simp, ?_, ?_⟩
      · exact chainFrom_snoc h2 h3 (Nat.zero_le _)
      · intro g hg
        rw [List.length_append]
        rcases List.mem_append.mp hg with hg | hg
        · have := h3 g hg
          omega
        · rw [List.mem_singleton] at hg
          subst hg
          simp

theorem roomInv_applyOp {r : Room} (h : RoomInv r) (op : Op) : RoomInv (applyOp r op) := by
  cases op with
  | sub id => exact h
  | pub s m => exact roomInv_publish h s m
  | flushOp =>
    constructor
    · exact List.Pairwise.nil
    · intro p hp
      cases hp

theorem roomInv_runOps {r : Room} (h : RoomInv r) (ops : List Op) :
    RoomInv (runOps r ops) := by
  induction ops generalizing r with
  | nil => exact h
  | cons op rest ih => exact ih (roomInv_applyOp h op)

theorem runOps_append (r : Room) (l1 l2 : List Op) :
    runOps r (l1 ++ l2) = runOps (runOps r l1) l2 := by
  simp [runOps, List.foldl_append]

theorem runOps_snoc (r : Room) (ops : List Op) (op : Op) :
    runOps r (ops ++ [op]) = applyOp (runOps r ops) op := by
  simp [runOps, List.foldl_append]

/-! ### Payload concatenation bookkeeping -/

theorem concatPubs_append (l1 l2 : List Op) :
    concatPubs (l1 ++ l2) = concatPubs l1 ++ concatPubs l2 := by
  induction l1 with
  | nil => rfl
  | cons o rest ih => cases o <;> simp [concatPubs, ih]

theorem concatExcept_append (x : Nat) (l1 l2 : List Op) :
    concatExcept x (l1 ++ l2) = concatExcept x l1 ++ concatExcept x l2 := by
  induction l1 with
  | nil => rfl
  | cons o rest ih => cases o <;> simp [concatExcept, ih]

theorem concatExcept_eq_concatPubs {x : Nat} {ops : List Op}
    (h : ∀ m, Op.pub x m ∉ ops) : concatExcept x ops = concatPubs ops := by
  induction ops with
  | nil => rfl
  | cons o rest ih =>
    have hrest : ∀ m, Op.pub x m ∉ rest := fun m hm => h m (List.mem_cons_of_mem _ hm)
    cases o with
    | sub id => simp [concatExcept, concatPubs, ih hrest]
    | flushOp => simp [concatExcept, concatPubs, ih hrest]
    | pub s m =>
      have hsx : s ≠ x := by
        intro he
        subst he
        exact h m (List.mem_cons_self _ _)
      simp [concatExcept, concatPubs, hsx, ih hrest]

theorem flushFree_append {l1 l2 : List Op} (h : flushFree (l1 ++ l2)) :
    flushFree l1 ∧ flushFree l2 := by
  constructor
  · exact fun o ho => h o (List.mem_append_left _ ho)
  · exact fun o ho => h o (List.mem_append_right _ ho)

theorem sharedMessage_runOps {ops : List Op} (hff : flushFree ops) : ∀ {r : Room},
    (runOps r ops).sharedMessage = r.sharedMessage ++ concatPubs ops := by
  induction ops with
  | nil =>
    intro r
    simp [runOps, concatPubs]
  | cons o rest ih =>
    intro r
    have hr : flushFree rest := fun o' ho' => hff o' (List.mem_cons_of_mem _ ho')
    have hstep : runOps r (o :: rest) = runOps (applyOp r o) rest := rfl
    cases o with
    | sub id =>
      rw [hstep, ih hr]
      simp [applyOp, Room.addSubscriber, concatPubs]
    | pub s m =>
      rw [hstep, ih hr]
      simp [applyOp, Room.publish, concatPubs, List.append_assoc]
    | flushOp => exact absurd rfl (hff _ (List.mem_cons_self _ _))

/-! ### The uniqueMessages computation -/

theorem collectMsgs_spec (buf : List Nat) {l : List (Nat × List Gap)}
    (h : ∀ p ∈ l, p.2 ≠ []) :
    ∃ msgs, collectMsgs buf l = some msgs ∧
      msgs.map Prod.fst = l.map Prod.fst ∧
      (∀ k gs, (k, gs) ∈ l → (k, recTail buf 0 gs) ∈ msgs) ∧
      (∀ k m, (k, m) ∈ msgs → ∃ gs, (k, gs) ∈ l ∧ m = recTail buf 0 gs) := by
  induction l with
  | nil =>
    refine ⟨[], rfl, rfl, ?_, ?_⟩
    · intro k gs hk
      cases hk
    · intro k m hk
      cases hk
  | cons p rest ih =>
    obtain ⟨k0, gs0⟩ := p
    have h0 : gs0 ≠ [] := h (k0, gs0) (List.mem_cons_self _ _)
    have hrest : ∀ p ∈ rest, p.2 ≠ [] := fun p hp => h p (List.mem_cons_of_mem _ hp)
    obtain ⟨msgs, hm, hkeys, hfwd, hbwd⟩ := ih hrest
    refine ⟨(k0, recTail buf 0 gs0) :: msgs, ?_, ?_, ?_, ?_⟩
    · simp [collectMsgs, reconstructCode_eq_recTail buf h0, hm]
    · simp [hkeys]
    · intro k gs hkgs
      rcases List.mem_cons.mp hkgs with he | hkgs
      · injection he with e1 e2
        subst e1
        subst e2
        exact List.mem_cons_self _ _
      · exact List.mem_cons_of_mem _ (hfwd k gs hkgs)
    · intro k m hkm
      rcases List.mem_cons.mp hkm with he | hkm
      · injection he with e1 e2
        subst e1
        subst e2
        exact ⟨gs0, List.mem_cons_self _ _, rfl⟩
      · obtain ⟨gs, hgs, hm2⟩ := hbwd k m hkm
        exact ⟨gs, List.mem_cons_of_mem _ hgs, hm2⟩

/-! ### The send loop (merge-join) -/

theorem dispatchLoop_nil_socks {sh : List Nat} {msgs : List (Nat × List Nat)} :
    dispatchLoop sh msgs [] = [] := by
  cases msgs <;> rfl

theorem dispatchLoop_nil_msgs {sh : List Nat} {s : Nat} {ss : List Nat} :
    dispatchLoop sh [] (s :: ss) =
      (s, SendAction.sendVerbatim sh) :: dispatchLoop sh [] ss := rfl

theorem dispatchLoop_cons_match {sh m : List Nat} {k s : Nat}
    {ms : List (Nat × List Nat)} {ss : List Nat} (h : k = s) :
    dispatchLoop sh ((k, m) :: ms) (s :: ss) =
      (if m.length ≠ 0 then [(s, SendAction.sendBytes m)] else []) ++
        dispatchLoop sh ms ss := by
  simp [dispatchLoop, h]

theorem dispatchLoop_cons_miss {sh m : List Nat} {k s : Nat}
    {ms : List (Nat × List Nat)} {ss : List Nat} (h : ¬k = s) :
    dispatchLoop sh ((k, m) :: ms) (s :: ss) =
      (s, SendAction.sendVerbatim sh) :: dispatchLoop sh ((k, m) :: ms) ss := by
  simp [dispatchLoop, h]

theorem dispatchLoop_mem_sockets {sh : List Nat} {socks : List Nat} :
    ∀ {msgs : List (Nat × List Nat)} {y : Nat} {a : SendAction},
      (y, a) ∈ dispatchLoop sh msgs socks → y ∈ socks := by
  induction socks with
  | nil =>
    intro msgs y a h
    rw [dispatchLoop_nil_socks] at h
    cases h
  | cons s ss ih =>
    intro msgs y a h
    cases msgs with
    | nil =>
      rw [dispatchLoop_nil_msgs] at h
      rcases List.mem_cons.mp h with he | h
      · injection he with e1 _
        subst e1
        exact List.mem_cons_self _ _
      · exact List.mem_cons_of_mem _ (ih h)
    | cons p ms =>
      obtain ⟨k, m⟩ := p
      by_cases hks : k = s
      · rw [dispatchLoop_cons_match hks] at h
        rcases List.mem_append.mp h with h | h
        · by_cases hm0 : m.length ≠ 0
          · rw [if_pos hm0] at h
            rcases List.mem_singleton.mp h with he
            injection he with e1 _
            subst e1
            exact List.mem_cons_self _ _
          · rw [if_neg hm0] at h
            cases h
        · exact List.mem_cons_of_mem _ (ih h)
      · rw [dispatchLoop_cons_miss hks] at h
        rcases List.mem_cons.mp h with he | h
        · injection he with e1 _
          subst e1
          exact List.mem_cons_self _ _
        · exact List.mem_cons_of_mem _ (ih h)

theorem dispatchLoop_pure_mem {sh : List Nat} {socks : List Nat} :
    ∀ {msgs : List (Nat × List Nat)} {x : Nat}, x ∈ socks →
      x ∉ msgs.map Prod.fst →
      (x, SendAction.sendVerbatim sh) ∈ dispatchLoop sh msgs socks := by
  induction socks with
  | nil =>
    intro msgs x hx _
    cases hx
  | cons s ss ih =>
    intro msgs x hx hnk
    cases msgs with
    | nil =>
      rw [dispatchLoop_nil_msgs]
      rcases List.mem_cons.mp hx with rfl | hx
      · exact List.mem_cons_self _ _
      · exact List.mem_cons_of_mem _ (ih hx (by simp))
    | cons p ms =>
      obtain ⟨k, m⟩ := p
      have hnk' : x ∉ ms.map Prod.fst := fun hm => hnk (List.mem_cons_of_mem _ hm)
      have hxk : x ≠ k := by
        intro he
        exact hnk (by rw [he]; exact List.mem_cons_self _ _)
      by_cases hks : k = s
      · rw [dispatchLoop_cons_match hks] at *
        rcases List.mem_cons.mp hx with rfl | hx
        · exact absurd hks (Ne.symm hxk)
        · exact List.mem_append_right _ (ih hx hnk')
      · rw [dispatchLoop_cons_miss hks]
        rcases List.mem_cons.mp hx with rfl | hx
        · exact List.mem_cons_self _ _
        · exact List.mem_cons_of_mem _ (ih hx hnk)

theorem dispatchLoop_pure_unique {sh : List Nat} {socks : List Nat} :
    ∀ {msgs : List (Nat × List Nat)} {x : Nat} {a : SendAction},
      x ∉ msgs.map Prod.fst → (x, a) ∈ dispatchLoop sh msgs socks →
      a = SendAction.sendVerbatim sh := by
  induction socks with
  | nil =>
    intro msgs x a _ h
    rw [dispatchLoop_nil_socks] at h
    cases h
  | cons s ss ih =>
    intro msgs x a hnk h
    cases msgs with
    | nil =>
      rw [dispatchLoop_nil_msgs] at h
      rcases List.mem_cons.mp h with he | h
      · rw [Prod.mk.injEq] at he
        exact he.2
      · exact ih (by simp) h
    | cons p ms =>
      obtain ⟨k, m⟩ := p
      have hnk' : x ∉ ms.map Prod.fst := fun hm => hnk (List.mem_cons_of_mem _ hm)
      have hxk : x ≠ k := by
        intro he
        exact hnk (by rw [he]; exact List.mem_cons_self _ _)
      by_cases hks : k = s
      · rw [dispatchLoop_cons_match hks] at h
        rcases List.mem_append.mp h with h | h
        · exfalso
          by_cases hm0 : m.length ≠ 0
          · rw [if_pos hm0] at h
            rw [List.mem_singleton, Prod.mk.injEq] at h
            exact hxk (h.1.trans hks.symm)
          · rw [if_neg hm0] at h
            cases h
        · exact ih hnk' h
      · rw [dispatchLoop_cons_miss hks] at h
        rcases List.mem_cons.mp h with he | h
        · rw [Prod.mk.injEq] at he
          exact he.2
        · exact ih hnk h

theorem dispatchLoop_sender {sh : List Nat} {socks : List Nat} :
    ∀ {msgs : List (Nat × List Nat)},
      List.Pairwise (· < ·) socks →
      List.Pairwise (· < ·) (msgs.map Prod.fst) →
      (∀ k ∈ msgs.map Prod.fst, k ∈ socks) →
      ∀ {y : Nat} {a : SendAction} {m : List Nat},
        (y, a) ∈ dispatchLoop sh msgs socks → (y, m) ∈ msgs →
        a = SendAction.sendBytes m := by
  induction socks with
  | nil =>
    intro msgs _ _ _ y a m h _
    rw [dispatchLoop_nil_socks] at h
    cases h
  | cons s ss ih =>
    intro msgs hsk hmk hsub y a m h hym
    rw [List.pairwise_cons] at hsk
    obtain ⟨hs, hss⟩ := hsk
    cases msgs with
    | nil => cases hym
    | cons p ms =>
      obtain ⟨k, m0⟩ := p
      rw [List.map_cons, List.pairwise_cons] at hmk
      obtain ⟨hk, hmk'⟩ := hmk
      replace hk : ∀ x ∈ ms.map Prod.fst, k < x := hk
      by_cases hks : k = s
      · rw [dispatchLoop_cons_match hks] at h
        rcases List.mem_append.mp h with hA | hB
        · by_cases hm0 : m0.length ≠ 0
          · rw [if_pos hm0] at hA
            rw [List.mem_singleton, Prod.mk.injEq] at hA
            obtain ⟨e1, e2⟩ := hA
            rcases List.mem_cons.mp hym with he2 | hym2
            · rw [Prod.mk.injEq] at he2
              rw [e2, he2.2]
            · exfalso
              have hy : y ∈ ms.map Prod.fst := List.mem_map.mpr ⟨(y, m), hym2, rfl⟩
              have := hk y hy
              omega
          · rw [if_neg hm0] at hA
            cases hA
        · rcases List.mem_cons.mp hym with he2 | hym2
          · exfalso
            rw [Prod.mk.injEq] at he2
            obtain ⟨e3, _⟩ := he2
            have hy : y ∈ ss := dispatchLoop_mem_sockets hB
            have := hs y hy
            omega
          · refine ih hss hmk' ?_ hB hym2
            intro x hx
            have hlt := hk x hx
            have hin := hsub x (List.mem_cons_of_mem _ hx)
            rcases List.mem_cons.mp hin with he3 | hin2
            · omega
            · exact hin2
      · have hkin : k ∈ s :: ss := hsub k (List.mem_cons_self _ _)
        rcases List.mem_cons.mp hkin with he | hkin2
        · exact absurd he hks
        · have hsk2 : s < k := hs k hkin2
          rw [dispatchLoop_cons_miss hks] at h
          rcases List.mem_cons.mp h with he | hB
          · exfalso
            rw [Prod.mk.injEq] at he
            obtain ⟨e1, _⟩ := he
            have hy : y ∈ (((k, m0) :: ms).map Prod.fst) :=
              List.mem_map.mpr ⟨(y, m), hym, rfl⟩
            rcases List.mem_cons.mp hy with he2 | hy2
            · omega
            · have := hk y hy2
              omega
          · refine ih hss ?_ ?_ hB hym
            · rw [List.map_cons, List.pairwise_cons]
              exact ⟨hk, hmk'⟩
            · intro x hx
              rcases List.mem_cons.mp hx with he3 | hx2
              · rw [he3]
                exact hkin2
              · have hlt := hk x hx2
                have hin := hsub x hx
                rcases List.mem_cons.mp hin with he4 | hin2
                · omega
                · exact hin2

/-! ### How one publish transforms each sender's reconstruction -/

theorem reconstructCode_single_full (buf m : List Nat) :
    reconstructCode (buf ++ m) [⟨buf.length, m.length⟩] = some buf := by
  simp only [reconstructCode, recTail]
  rw [List.take_left]
  have h2 : List.drop (buf.length + m.length) (buf ++ m) = [] := by
    simp [List.drop_eq_nil_iff]
  rw [h2, List.append_nil]

theorem reconstructCode_snocGap {buf m : List Nat} {R : List Gap}
    (hne : R ≠ []) (hbd : ∀ g ∈ R, g.start + g.length ≤ buf.length) :
    reconstructCode (buf ++ m) (R ++ [⟨buf.length, m.length⟩]) =
      reconstructCode buf R := by
  obtain ⟨g0, gs, rfl⟩ := List.exists_cons_of_ne_nil hne
  rw [List.cons_append]
  simp only [reconstructCode]
  rw [List.take_append_of_le_length
      (by have := hbd g0 (List.mem_cons_self _ _); omega),
    recTail_snocGap (fun g hg => hbd g (List.mem_cons_of_mem _ hg))
      (by have := hbd g0 (List.mem_cons_self _ _); omega)]

theorem reconstructCode_extend {buf m : List Nat} {R : List Gap}
    (hne : R ≠ []) (hbd : ∀ g ∈ R, g.start + g.length ≤ buf.length) :
    reconstructCode (buf ++ m) R = (reconstructCode buf R).map (· ++ m) := by
  obtain ⟨g0, gs, rfl⟩ := List.exists_cons_of_ne_nil hne
  simp only [reconstructCode, Option.map_some']
  rw [List.take_append_of_le_length
      (by have := hbd g0 (List.mem_cons_self _ _); omega),
    recTail_extend (fun g hg => hbd g (List.mem_cons_of_mem _ hg))
      (by have := hbd g0 (List.mem_cons_self _ _); omega),
    List.append_assoc]

/-! ### The window characterization: within one window the exclusion
index keys are exactly the publishers and each sender's reconstruction
is the concatenation of everyone else's payloads -/

theorem window_spec (ops : List Op) : flushFree ops →
    (∀ k, k ∈ (runOps initRoom ops).uniqueSenders.map Prod.fst ↔
      ∃ m, Op.pub k m ∈ ops) ∧
    (∀ s R, (s, R) ∈ (runOps initRoom ops).uniqueSenders →
      reconstructCode (runOps initRoom ops).sharedMessage R =
        some (concatExcept s ops)) := by
  induction ops using List.reverseRecOn with
  | nil =>
    intro _
    constructor
    · intro k
      simp [runOps, initRoom]
    · intro s R hR
      simp [runOps, initRoom] at hR
  | append_singleton ops op ih =>
    intro hff
    obtain ⟨hff1, hff2⟩ := flushFree_append hff
    obtain ⟨ihkeys, ihrec⟩ := ih hff1
    have hinv : RoomInv (runOps initRoom ops) := roomInv_runOps roomInv_initRoom ops
    have hbuf : (runOps initRoom ops).sharedMessage = concatPubs ops := by
      have h := sharedMessage_runOps hff1 (r := initRoom)
      simpa [initRoom] using h
    cases op with
    | flushOp => exact absurd rfl (hff2 _ (List.mem_singleton.mpr rfl))
    | sub id =>
      rw [runOps_snoc]
      constructor
      · intro k
        constructor
        · intro hk
          obtain ⟨m, hm⟩ := (ihkeys k).mp hk
          exact ⟨m, List.mem_append_left _ hm⟩
        · rintro ⟨m, hm⟩
          rcases List.mem_append.mp hm with hm | hm
          · exact (ihkeys k).mpr ⟨m, hm⟩
          · rw [List.mem_singleton] at hm
            simp at hm
      · intro s R hR
        rw [concatExcept_append]
        have h1 : concatExcept s [Op.sub id] = [] := rfl
        rw [h1, List.append_nil]
        exact ihrec s R hR
    | pub t m =>
      rw [runOps_snoc]
      constructor
      · intro k
        constructor
        · intro hk
          rcases mem_keys_insertGap.mp hk with rfl | hk2
          · exact ⟨m, List.mem_append_right _ (List.mem_singleton.mpr rfl)⟩
          · obtain ⟨m', hm'⟩ := (ihkeys k).mp hk2
            exact ⟨m', List.mem_append_left _ hm'⟩
        · rintro ⟨m', hm'⟩
          apply mem_keys_insertGap.mpr
          rcases List.mem_append.mp hm' with hm' | hm'
          · exact Or.inr ((ihkeys k).mpr ⟨m', hm'⟩)
          · rw [List.mem_singleton, Op.pub.injEq] at hm'
            exact Or.inl hm'.1
      · intro s R hR
        simp only [applyOp, Room.publish] at hR ⊢
        rw [concatExcept_append]
        by_cases hst : s = t
        · subst hst
          have h1 : concatExcept s [Op.pub s m] = [] := by simp [concatExcept]
          rw [h1, List.append_nil]
          rcases mem_insertGap_self hinv.1 hR with ⟨rfl, hnk⟩ | ⟨R0, hR0, rfl⟩
          · have hnot : ∀ m', Op.pub s m' ∉ ops := by
              intro m' hm'
              exact hnk ((ihkeys s).mpr ⟨m', hm'⟩)
            rw [concatExcept_eq_concatPubs hnot, ← hbuf]
            exact reconstructCode_single_full _ _
          · have hfacts := hinv.2 (s, R0) hR0
            rw [← ihrec s R0 hR0]
            exact reconstructCode_snocGap hfacts.1 (fun g hg => hfacts.2.2 g hg)
        · have h1 : concatExcept s [Op.pub t m] = m := by
            have htns : t ≠ s := Ne.symm hst
            simp [concatExcept, htns]
          rw [h1]
          have hIn : (s, R) ∈ (runOps initRoom ops).uniqueSenders :=
            (mem_insertGap_ne hst).mp hR
          have hfacts := hinv.2 (s, R) hIn
          rw [reconstructCode_extend hfacts.1 (fun g hg => hfacts.2.2 g hg),
            ihrec s R hIn]
          rfl

/-! ### The claims -/

/-- C1: for every sequence of publish(sender, payload) calls
accumulated in one window, the verbatim payload that flush/broadcast
sends to a pure listener (a subscriber with no entry in the exclusion
index) equals the exact concatenation of all published payloads in
publish order, i.e. equals sharedMessage as built by successive
appends. -/
theorem spec_C1_pure_listener_verbatim (ops : List Op) (hff : flushFree ops)
    (x : Nat) (hx : x ∈ (runOps initRoom ops).sockets)
    (hpure : x ∉ (runOps initRoom ops).uniqueSenders.map Prod.fst) :
    ∃ plan r', (runOps initRoom ops).broadcast = some (plan, r') ∧
      (x, SendAction.sendVerbatim (concatPubs ops)) ∈ plan ∧
      ∀ a, (x, a) ∈ plan → a = SendAction.sendVerbatim (concatPubs ops) := by
  have hinv := roomInv_runOps roomInv_initRoom ops
  have hbuf : (runOps initRoom ops).sharedMessage = concatPubs ops := by
    have h := sharedMessage_runOps hff (r := initRoom)
    simpa [initRoom] using h
  obtain ⟨msgs, hm, hkeys, _, _⟩ := collectMsgs_spec
    (runOps initRoom ops).sharedMessage
    (fun p hp => (hinv.2 p hp).1)
  refine ⟨dispatchLoop (runOps initRoom ops).sharedMessage msgs
      (runOps initRoom ops).sockets,
    (runOps initRoom ops).flushState, ?_, ?_, ?_⟩
  · simp [Room.broadcast, Room.broadcastPlan, hm]
  · rw [← hbuf]
    exact dispatchLoop_pure_mem hx (by rw [hkeys]; exact hpure)
  · intro a ha
    rw [← hbuf]
    exact dispatchLoop_pure_unique (by rw [hkeys]; exact hpure) ha

theorem spec_C1_witness :
    flushFree [Op.sub 3, Op.pub 1 [10]] ∧
    3 ∈ (runOps initRoom [Op.sub 3, Op.pub 1 [10]]).sockets ∧
    3 ∉ (runOps initRoom [Op.sub 3, Op.pub 1 [10]]).uniqueSenders.map Prod.fst ∧
    ∃ plan r', (runOps initRoom [Op.sub 3, Op.pub 1 [10]]).broadcast = some (plan, r') ∧
      (3, SendAction.sendVerbatim (concatPubs [Op.sub 3, Op.pub 1 [10]])) ∈ plan ∧
      ∀ a, (3, a) ∈ plan →
        a = SendAction.sendVerbatim (concatPubs [Op.sub 3, Op.pub 1 [10]]) :=
  ⟨by decide, by decide, by decide,
    spec_C1_pure_listener_verbatim _ (by decide) 3 (by decide) (by decide)⟩

/-- C2: for every sender s whose publishes during the window recorded
the range list R, the payload that flush/broadcast computes for s
equals sharedMessage with every range in R removed (the ordered
concatenation of the complement segments, specSegments), and that
payload is empty iff R covers the entire buffer. -/
theorem spec_C2_exclusion_correct (ops : List Op) (s : Nat) (R : List Gap)
    (hR : (s, R) ∈ (runOps initRoom ops).uniqueSenders) :
    reconstructCode (runOps initRoom ops).sharedMessage R =
      some (specSegments (runOps initRoom ops).sharedMessage R) ∧
    (specSegments (runOps initRoom ops).sharedMessage R = [] ↔
      coversBuffer (runOps initRoom ops).sharedMessage.length R) := by
  have hinv := roomInv_runOps roomInv_initRoom ops
  obtain ⟨hne, hch, hbd⟩ := hinv.2 (s, R) hR
  have h1 := reconstructCode_eq_specSegments
    (runOps initRoom ops).sharedMessage hch hne
  refine ⟨h1, ?_⟩
  have h2 := reconstructCode_eq_recTail
    (runOps initRoom ops).sharedMessage hne
  have h3 : specSegments (runOps initRoom ops).sharedMessage R =
      recTail (runOps initRoom ops).sharedMessage 0 R :=
    Option.some.inj (h1.symm.trans h2)
  rw [h3, recTail_eq_nil_iff hch hbd]
  constructor
  · intro h i hi
    exact h i (Nat.zero_le _) hi
  · intro h i _ hi
    exact h i hi

theorem spec_C2_witness :
    ((1, [⟨0, 1⟩]) ∈ (runOps initRoom [Op.pub 1 [97], Op.pub 2 [98]]).uniqueSenders) ∧
    (reconstructCode (runOps initRoom [Op.pub 1 [97], Op.pub 2 [98]]).sharedMessage [⟨0, 1⟩] =
      some (specSegments (runOps initRoom [Op.pub 1 [97], Op.pub 2 [98]]).sharedMessage [⟨0, 1⟩]) ∧
    (specSegments (runOps initRoom [Op.pub 1 [97], Op.pub 2 [98]]).sharedMessage [⟨0, 1⟩] = [] ↔
      coversBuffer (runOps initRoom [Op.pub 1 [97], Op.pub 2 [98]]).sharedMessage.length [⟨0, 1⟩])) :=
  ⟨by decide, spec_C2_exclusion_correct [Op.pub 1 [97], Op.pub 2 [98]] 1 [⟨0, 1⟩] (by decide)⟩

/-- C3 counterexample: with senders 1 and 2 but only 2 subscribed, the
merge-join cursor stalls on absent sender 1 and subscriber 2 — itself
the sender of the byte at range (1,1) — receives the verbatim shared
buffer (97, 98) instead of its reconstruction (97): the claim fails
for this subscriber list. -/
theorem spec_C3_counterexample :
    (runOps initRoom [Op.sub 2, Op.pub 1 [97], Op.pub 2 [98]]).broadcast =
      some ([(2, SendAction.sendVerbatim [97, 98])], Room.mk [] [] [2] true 0) ∧
    (2, [⟨1, 1⟩]) ∈ (runOps initRoom [Op.sub 2, Op.pub 1 [97], Op.pub 2 [98]]).uniqueSenders ∧
    reconstructCode (runOps initRoom [Op.sub 2, Op.pub 1 [97], Op.pub 2 [98]]).sharedMessage
      [⟨1, 1⟩] = some [97] ∧
    SendAction.sendVerbatim [97, 98] ≠ SendAction.sendBytes [97] := by
  decide

/-- C3 amended: for every window composition (any flush-free sequence
of subscribe and publish operations) and every subscriber list that is
strictly sorted and contains every sender of the window, every send
that flush/broadcast emits to a sender y is exactly the concatenation
of the payloads published by the other senders — hence it contains no
byte of a range y itself published. (The counterexample forces the
added subscriber-list hypothesis: with a sender missing from the
subscriber list, a later sender can receive its own bytes back.) -/
theorem spec_C3_no_self_echo_amended (ops : List Op) (hff : flushFree ops)
    (hsorted : List.Pairwise (· < ·) (runOps initRoom ops).sockets)
    (hall : ∀ k ∈ (runOps initRoom ops).uniqueSenders.map Prod.fst,
      k ∈ (runOps initRoom ops).sockets)
    (plan : List (Nat × SendAction)) (r' : Room)
    (hplan : (runOps initRoom ops).broadcast = some (plan, r'))
    (y : Nat) (a : SendAction) (ha : (y, a) ∈ plan)
    (R : List Gap) (hy : (y, R) ∈ (runOps initRoom ops).uniqueSenders) :
    a = SendAction.sendBytes (concatExcept y ops) := by
  have hinv := roomInv_runOps roomInv_initRoom ops
  obtain ⟨_, hwrec⟩ := window_spec ops hff
  obtain ⟨msgs, hm, hkeys, hfwd, _⟩ := collectMsgs_spec
    (runOps initRoom ops).sharedMessage
    (fun p hp => (hinv.2 p hp).1)
  have hplan2 : plan = dispatchLoop (runOps initRoom ops).sharedMessage msgs
      (runOps initRoom ops).sockets := by
    simp only [Room.broadcast, Room.broadcastPlan, hm, Option.map_some',
      Option.some.injEq, Prod.mk.injEq] at hplan
    exact hplan.1.symm
  subst hplan2
  have hrec := hwrec y R hy
  have hmem : (y, recTail (runOps initRoom ops).sharedMessage 0 R) ∈ msgs :=
    hfwd y R hy
  have hReq : recTail (runOps initRoom ops).sharedMessage 0 R = concatExcept y ops := by
    have h2 := reconstructCode_eq_recTail
      (runOps initRoom ops).sharedMessage ((hinv.2 (y, R) hy).1)
    exact Option.some.inj (h2.symm.trans hrec)
  rw [hReq] at hmem
  exact dispatchLoop_sender hsorted (by rw [hkeys]; exact hinv.1)
    (fun k hk => hall k (by rw [← hkeys]; exact hk)) ha hmem

theorem spec_C3_witness :
    flushFree [Op.sub 1, Op.sub 2, Op.pub 1 [97], Op.pub 2 [98]] ∧
    List.Pairwise (· < ·)
      (runOps initRoom [Op.sub 1, Op.sub 2, Op.pub 1 [97], Op.pub 2 [98]]).sockets ∧
    (runOps initRoom [Op.sub 1, Op.sub 2, Op.pub 1 [97], Op.pub 2 [98]]).broadcast =
      some ([(1, SendAction.sendBytes [98]), (2, SendAction.sendBytes [97])],
        Room.mk [] [] [1, 2] true 0) ∧
    SendAction.sendBytes [98] =
      SendAction.sendBytes
        (concatExcept 1 [Op.sub 1, Op.sub 2, Op.pub 1 [97], Op.pub 2 [98]]) :=
  ⟨by decide, by decide, by decide,
    spec_C3_no_self_echo_amended [Op.sub 1, Op.sub 2, Op.pub 1 [97], Op.pub 2 [98]]
      (by decide) (by decide) (by decide)
      [(1, SendAction.sendBytes [98]), (2, SendAction.sendBytes [97])]
      (Room.mk [] [] [1, 2] true 0) (by decide)
      1 (SendAction.sendBytes [98]) (by decide) [⟨0, 1⟩] (by decide)⟩

/-- C4 counterexample: sender 1 has an exclusion entry but is not in
the subscriber list; no send is emitted for it, but subscriber 2 (a
sender ordered after it) is affected: it receives the verbatim buffer
(97, 98) instead of its correct reconstruction (97), so the claim's
"other subscribers unaffected" part fails. -/
theorem spec_C4_counterexample :
    (1, [⟨0, 1⟩]) ∈ (runOps initRoom [Op.sub 2, Op.pub 1 [97], Op.pub 2 [98]]).uniqueSenders ∧
    1 ∉ (runOps initRoom [Op.sub 2, Op.pub 1 [97], Op.pub 2 [98]]).sockets ∧
    (runOps initRoom [Op.sub 2, Op.pub 1 [97], Op.pub 2 [98]]).broadcastPlan =
      some [(2, SendAction.sendVerbatim [97, 98])] ∧
    reconstructCode (runOps initRoom [Op.sub 2, Op.pub 1 [97], Op.pub 2 [98]]).sharedMessage
      [⟨1, 1⟩] = some [97] := by
  decide

/-- C4 amended: the dispatch only ever emits sends to ids present in
the subscriber list, so a sender absent from it indeed gets no send;
but the other subscribers' sends are not in general unaffected — a
subscriber-sender ordered after the absent sender receives the
verbatim buffer instead of its reconstruction, as the counterexample
shows. -/
theorem spec_C4_absent_sender_amended (ops : List Op)
    (plan : List (Nat × SendAction)) (r' : Room)
    (hplan : (runOps initRoom ops).broadcast = some (plan, r'))
    (y : Nat) (a : SendAction) (ha : (y, a) ∈ plan) :
    y ∈ (runOps initRoom ops).sockets := by
  have hinv := roomInv_runOps roomInv_initRoom ops
  obtain ⟨msgs, hm, _, _, _⟩ := collectMsgs_spec
    (runOps initRoom ops).sharedMessage
    (fun p hp => (hinv.2 p hp).1)
  have hplan2 : plan = dispatchLoop (runOps initRoom ops).sharedMessage msgs
      (runOps initRoom ops).sockets := by
    simp only [Room.broadcast, Room.broadcastPlan, hm, Option.map_some',
      Option.some.injEq, Prod.mk.injEq] at hplan
    exact hplan.1.symm
  subst hplan2
  exact dispatchLoop_mem_sockets ha

theorem spec_C4_witness :
    (runOps initRoom [Op.sub 2, Op.pub 1 [97]]).broadcast =
      some ([(2, SendAction.sendVerbatim [97])], Room.mk [] [] [2] true 0) ∧
    2 ∈ (runOps initRoom [Op.sub 2, Op.pub 1 [97]]).sockets :=
  ⟨by decide,
    spec_C4_absent_sender_amended [Op.sub 2, Op.pub 1 [97]]
      [(2, SendAction.sendVerbatim [97])] (Room.mk [] [] [2] true 0) (by decide)
      2 (SendAction.sendVerbatim [97]) (by decide)⟩

/-- C5 counterexample: addSubscriber does push_back followed by a full
sort, so subscribing an already-present id duplicates it — the
subscriber list is not left equal to what it was. -/
theorem spec_C5_counterexample :
    ((initRoom.addSubscriber 5).addSubscriber 5).sockets ≠
      (initRoom.addSubscriber 5).sockets := by
  decide

/-- C5 amended: subscribe (addSubscriber) is not idempotent: it
unconditionally appends the id and re-sorts, so every call grows the
subscriber list by exactly one entry (a duplicate when the id was
already present) while keeping it sorted. -/
theorem spec_C5_subscribe_amended (r : Room) (id : Nat) :
    (r.addSubscriber id).sockets.length = r.sockets.length + 1 ∧
    List.Pairwise (· ≤ ·) (r.addSubscriber id).sockets := by
  constructor
  · simp [Room.addSubscriber, length_sortList]
  · exact pairwise_sortList _

/-- C6 counterexample: broadcast itself has no pendingCount guard: on
a room with batched = 0, one subscriber and empty state it still emits
a verbatim send of the empty prepared message to that subscriber, so
calling broadcast directly is not a no-op returning an empty plan. -/
theorem spec_C6_counterexample :
    (initRoom.addSubscriber 1).batched = 0 ∧
    (initRoom.addSubscriber 1).broadcast =
      some ([(1, SendAction.sendVerbatim [])], initRoom.addSubscriber 1) ∧
    ([(1, SendAction.sendVerbatim [])] : List (Nat × SendAction)) ≠ [] := by
  decide

/-- C6 amended: the no-pending no-op is enforced at the flush trigger,
not inside broadcast: the check callback (the only caller of broadcast)
with pendingCount = 0 emits no send and leaves the room unchanged; a
direct broadcast call with pendingCount = 0 would instead emit an
empty verbatim frame to every subscriber (see the counterexample). -/
theorem spec_C6_flush_noop_amended (r : Room) (h : r.batched = 0) :
    checkCb r = some ([], r) := by
  simp [checkCb, h]

theorem spec_C6_witness :
    initRoom.batched = 0 ∧ checkCb initRoom = some ([], initRoom) :=
  ⟨rfl, spec_C6_flush_noop_amended initRoom rfl⟩

/-- C9 counterexample: reconstructing with an empty range list does
not return the buffer unchanged — the code reads ranges[0] out of
bounds (modelled as none). -/
theorem spec_C9_counterexample :
    reconstructCode [97] [] = none ∧ reconstructCode [97] [] ≠ some [97] := by
  decide

/-- C9 amended: reconstructing with a single range spanning the whole
buffer returns the empty result, as claimed; but with an empty range
list the inline reconstruction reads ranges[0] out of bounds (none)
instead of returning the buffer — that case is unreachable in the
program because every exclusion entry is created with at least one
range (C10). -/
theorem spec_C9_edge_cases_amended (buf : List Nat) :
    reconstructCode buf [⟨0, buf.length⟩] = some [] ∧
    reconstructCode buf [] = none := by
  constructor
  · simp [reconstructCode, recTail]
  · rfl

/-- C10: in every reachable state, every sender id present in the
exclusion index maps to a non-empty range list (entries are only
created by publish, which immediately appends a range, and flush
clears the whole index); hence the reconstruction loop's unconditional
access to the first range succeeds and the broadcast plan is defined. -/
theorem spec_C10_nonempty_entries (ops : List Op) :
    (∀ p ∈ (runOps initRoom ops).uniqueSenders, p.2 ≠ []) ∧
    ((runOps initRoom ops).broadcastPlan).isSome = true := by
  have hinv := roomInv_runOps roomInv_initRoom ops
  have hne : ∀ p ∈ (runOps initRoom ops).uniqueSenders, p.2 ≠ [] :=
    fun p hp => (hinv.2 p hp).1
  refine ⟨hne, ?_⟩
  obtain ⟨msgs, hm, _, _, _⟩ := collectMsgs_spec
    (runOps initRoom ops).sharedMessage hne
  simp [Room.broadcastPlan, hm]

theorem spec_C10_witness :
    ((1, [⟨0, 1⟩]) ∈ (runOps initRoom [Op.pub 1 [97]]).uniqueSenders) ∧
    ([⟨0, 1⟩] : List Gap) ≠ [] :=
  ⟨by decide, (spec_C10_nonempty_entries [Op.pub 1 [97]]).1 (1, [⟨0, 1⟩]) (by decide)⟩

theorem posLen_runOps {ops : List Op} (hpos : allPubsNonempty ops) :
    ∀ {r : Room}, (∀ p ∈ r.uniqueSenders, ∀ g ∈ p.2, 0 < g.length) →
      ∀ p ∈ (runOps r ops).uniqueSenders, ∀ g ∈ p.2, 0 < g.length := by
  induction ops with
  | nil =>
    intro r h
    exact h
  | cons op rest ih =>
    intro r h
    have hpos' : allPubsNonempty rest := fun o ho => hpos o (List.mem_cons_of_mem _ ho)
    have hstep : runOps r (op :: rest) = runOps (applyOp r op) rest := rfl
    rw [hstep]
    apply ih hpos'
    cases op with
    | sub id => exact h
    | flushOp =>
      intro p hp
      cases hp
    | pub t m =>
      intro p hp
      simp only [applyOp, Room.publish] at hp
      have hm : 0 < m.length := by
        have h2 := hpos (Op.pub t m) (List.mem_cons_self _ _)
        simp only [pubNonemptyB, Bool.not_eq_true', List.isEmpty_eq_false] at h2
        exact List.length_pos.mpr h2
      rcases mem_insertGap_cases hp with hIn | hNew | ⟨R0, hR0, hEq⟩
      · exact h p hIn
      · subst hNew
        intro g hg
        rw [List.mem_singleton] at hg
        subst hg
        exact hm
      · subst hEq
        intro g hg
        rcases List.mem_append.mp hg with hg | hg
        · exact h (t, R0) hR0 g hg
        · rw [List.mem_singleton] at hg
          subst hg
          exact hm

/-- C7 counterexample: two publishes of the empty payload by the same
sender record two gaps with the same start, so the range list is not
sorted strictly increasing in start as claimed. -/
theorem spec_C7_counterexample :
    (runOps initRoom [Op.pub 1 [], Op.pub 1 []]).uniqueSenders =
      [(1, [⟨0, 0⟩, ⟨0, 0⟩])] ∧
    ¬ List.Pairwise (fun g₁ g₂ : Gap => g₁.start < g₂.start) [⟨0, 0⟩, ⟨0, 0⟩] := by
  constructor
  · decide
  · intro h
    rw [List.pairwise_cons] at h
    have := h.1 ⟨0, 0⟩ (List.mem_singleton.mpr rfl)
    omega

/-- C7 amended: in every reachable state the range list of each sender
chains left to right — every range starts at or after the previous
range's end, so ranges are pairwise non-overlapping and starts are
non-decreasing — and every range satisfies start + length ≤
len(sharedMessage); the starts are strictly increasing provided all
published payloads are non-empty (an empty publish repeats the
previous start, see the counterexample). -/
theorem spec_C7_invariant_amended (ops : List Op) (s : Nat) (R : List Gap)
    (hR : (s, R) ∈ (runOps initRoom ops).uniqueSenders) :
    chainFrom 0 R ∧
    List.Pairwise (fun g₁ g₂ : Gap => g₁.start + g₁.length ≤ g₂.start) R ∧
    (∀ g ∈ R, g.start + g.length ≤ (runOps initRoom ops).sharedMessage.length) ∧
    (allPubsNonempty ops →
      List.Pairwise (fun g₁ g₂ : Gap => g₁.start < g₂.start) R) := by
  have hinv := roomInv_runOps roomInv_initRoom ops
  obtain ⟨_, hch, hbd⟩ := hinv.2 (s, R) hR
  refine ⟨hch, chainFrom_pairwise hch, hbd, ?_⟩
  intro hpos
  have hplen : ∀ g ∈ R, 0 < g.length := by
    have h0 : ∀ p ∈ initRoom.uniqueSenders, ∀ g ∈ p.2, 0 < g.length := by
      intro p hp
      cases hp
    exact posLen_runOps hpos h0 (s, R) hR
  refine (chainFrom_pairwise hch).imp_of_mem ?_
  intro g₁ g₂ h₁ _ hle
  have := hplen g₁ h₁
  omega

theorem spec_C7_witness :
    ((2, [⟨1, 1⟩]) ∈ (runOps initRoom [Op.pub 1 [97], Op.pub 2 [98]]).uniqueSenders) ∧
    (chainFrom 0 [⟨1, 1⟩] ∧
    List.Pairwise (fun g₁ g₂ : Gap => g₁.start + g₁.length ≤ g₂.start) [⟨1, 1⟩] ∧
    (∀ g ∈ ([⟨1, 1⟩] : List Gap), g.start + g.length ≤
      (runOps initRoom [Op.pub 1 [97], Op.pub 2 [98]]).sharedMessage.length) ∧
    (allPubsNonempty [Op.pub 1 [97], Op.pub 2 [98]] →
      List.Pairwise (fun g₁ g₂ : Gap => g₁.start < g₂.start) [⟨1, 1⟩])) :=
  ⟨by decide,
    spec_C7_invariant_amended [Op.pub 1 [97], Op.pub 2 [98]] 2 [⟨1, 1⟩] (by decide)⟩

theorem runPubs_gotPubs {pubs : List (Nat × List Nat)} (h : pubs ≠ []) (r : Room) :
    (runPubs r pubs).gotPubsThisIteration = true := by
  induction pubs generalizing r with
  | nil => exact absurd rfl h
  | cons p ps ih =>
    obtain ⟨s, m⟩ := p
    cases ps with
    | nil => rfl
    | cons q qs => exact ih (by simp) (r.publish s m)

theorem runPubs_batched (pubs : List (Nat × List Nat)) (r : Room) :
    (runPubs r pubs).batched = r.batched + pubs.length := by
  induction pubs generalizing r with
  | nil => rfl
  | cons p ps ih =>
    obtain ⟨s, m⟩ := p
    have hstep : runPubs r ((s, m) :: ps) = runPubs (r.publish s m) ps := rfl
    rw [hstep, ih]
    simp [Room.publish]
    omega

theorem prepareCb_batched (r : Room) : (prepareCb r).batched = r.batched := by
  rw [prepareCb]
  split <;> rfl

/-- C8: the check callback (onAfterReady) flushes exactly on a quiet
pass: it calls broadcast, leaving the room Idle (batched = 0), iff the
room is Batching (batched not 0) and receivedThisPass is false, and
otherwise does nothing; hence a Batching room with a pass carrying no
publish is flushed within that one controller pass (the prepare
callback clears the flag, the check callback then broadcasts), while
any publish during the pass keeps the window open. -/
theorem spec_C8_window_controller (ops : List Op) :
    ((runOps initRoom ops).batched ≠ 0 ∧
        (runOps initRoom ops).gotPubsThisIteration = false →
      checkCb (runOps initRoom ops) = (runOps initRoom ops).broadcast ∧
      ∀ plan r', (runOps initRoom ops).broadcast = some (plan, r') →
        r'.batched = 0) ∧
    (¬((runOps initRoom ops).batched ≠ 0 ∧
        (runOps initRoom ops).gotPubsThisIteration = false) →
      checkCb (runOps initRoom ops) = some ([], runOps initRoom ops)) ∧
    ((runOps initRoom ops).batched ≠ 0 →
      ∃ plan r', controllerPass (runOps initRoom ops) [] = some (plan, r') ∧
        r'.batched = 0) ∧
    (∀ pubs, pubs ≠ [] →
      ∃ r'', controllerPass (runOps initRoom ops) pubs = some ([], r'') ∧
        r''.batched ≠ 0) := by
  have hinv := roomInv_runOps roomInv_initRoom ops
  obtain ⟨msgs, hm, _, _, _⟩ := collectMsgs_spec
    (runOps initRoom ops).sharedMessage
    (fun p hp => (hinv.2 p hp).1)
  refine ⟨?_, ?_, ?_, ?_⟩
  · intro h
    constructor
    · simp [checkCb, h.1, h.2]
    · intro plan r' hbr
      simp only [Room.broadcast] at hbr
      cases hcm : (runOps initRoom ops).broadcastPlan with
      | none =>
        rw [hcm] at hbr
        cases hbr
      | some p =>
        rw [hcm] at hbr
        simp only [Option.map_some', Option.some.injEq, Prod.mk.injEq] at hbr
        rw [← hbr.2]
        rfl
  · intro h
    simp only [checkCb]
    rw [if_neg h]
  · intro hb
    refine ⟨dispatchLoop (runOps initRoom ops).sharedMessage msgs
        (runOps initRoom ops).sockets,
      Room.mk [] [] (runOps initRoom ops).sockets false 0, ?_, rfl⟩
    simp only [controllerPass, runPubs, prepareCb, if_pos hb]
    simp [checkCb, hb, Room.broadcast, Room.broadcastPlan, hm, Room.flushState]
  · intro pubs hne
    refine ⟨runPubs (prepareCb (runOps initRoom ops)) pubs, ?_, ?_⟩
    · have hg := runPubs_gotPubs hne (prepareCb (runOps initRoom ops))
      simp [controllerPass, checkCb, hg]
    · rw [runPubs_batched, prepareCb_batched]
      have hlen : pubs.length ≠ 0 := by
        cases pubs with
        | nil => exact absurd rfl hne
        | cons q qs => simp
      omega

theorem spec_C8_witness :
    (runOps initRoom [Op.pub 1 [97]]).batched ≠ 0 ∧
    ∃ plan r', controllerPass (runOps initRoom [Op.pub 1 [97]]) [] = some (plan, r') ∧
      r'.batched = 0 :=
  ⟨by decide, (spec_C8_window_controller [Op.pub 1 [97]]).2.2.1 (by decide)⟩
